import Mathlib

set_option maxHeartbeats 1000000
set_option maxRecDepth 4000

/-!
Shallow embedding of the Markdown-to-DOCX core of the repository
(`src/md2docx/tools/md2docx.py`): the block parser (`MarkdownParser`), the
inline formatter (`_parse_inline_formatting`), the image branch of the
renderer (`DocxConverter.add_image` / `download_image`), the orchestrator
(`convert_md_to_docx`) and the tool entry point (`Md2docxTool._invoke`).

Python strings are modelled as `List Char`; Python's `str.split`, `str.strip`,
`str.join` and the specific regular expressions used by the source are
modelled as executable char-list functions.  The parser's `while` loop over
the line cursor is modelled as a step function on an explicit state plus a
fuel-indexed driver (`parseFuel`); `none` means the loop has not finished
within the given fuel, and `MarkdownParser.parse` runs the driver with fuel
`lines.length + 1`, which suffices for every iteration that advances the
cursor (each non-stuck iteration consumes at least one line).  External
collaborators (network fetch, image decode, the docx container) are opaque
oracles passed as function arguments, as the specification directs.
-/

/-- Python `\s` whitespace over ASCII: space, tab, newline, carriage return,
vertical tab, form feed (the characters `str.strip()` removes). -/
def isPySpace (c : Char) : Bool :=
  c == ' ' || c == '\t' || c == '\n' || c == '\r' || c == Char.ofNat 11 || c == Char.ofNat 12

/-- Backtick character (written via its code point). -/
def bt : Char := Char.ofNat 96

/-- Python `str.rstrip()`: drop trailing `\s` characters. -/
def pyRstrip (l : List Char) : List Char :=
  (l.reverse.dropWhile isPySpace).reverse

/-- Python `str.strip()`: drop leading and trailing `\s` characters. -/
def pyStrip (l : List Char) : List Char :=
  pyRstrip (l.dropWhile isPySpace)

/-- Python `str.split(sep)` for a one-character separator: always returns
`count(sep) + 1` pieces, so the empty string yields `[[]]`. -/
def splitOnChar (sep : Char) : List Char → List (List Char)
  | [] => [[]]
  | c :: cs =>
    match splitOnChar sep cs with
    | [] => [[c]]
    | l :: ls => if c = sep then [] :: l :: ls else (c :: l) :: ls

/-- Python `sep.join(pieces)` for a one-character separator. -/
def joinWith (sep : Char) : List (List Char) → List Char
  | [] => []
  | [l] => l
  | l :: ls => l ++ sep :: joinWith sep ls

/-- A formatted text fragment as produced by `_parse_inline_formatting`:
the dict `{'text': ..., 'bold': ..., 'italic': ...}`. -/
structure StyledRun where
  text : List Char
  bold : Bool
  italic : Bool
deriving DecidableEq, Repr

/-- The five delimiter alternatives of the inline-formatting pattern
`(\*\*\*([^*]+)\*\*\*|\*\*([^*]+)\*\*|\*([^*]+)\*|__([^_]+)__|_([^_]+)_)`,
in the pattern's order. -/
inductive Delim | a3 | a2 | a1 | u2 | u1
deriving DecidableEq, Repr

/-- The literal delimiter string of each alternative. -/
def Delim.str : Delim → List Char
  | .a3 => ['*', '*', '*']
  | .a2 => ['*', '*']
  | .a1 => ['*']
  | .u2 => ['_', '_']
  | .u1 => ['_']

/-- The character excluded from the delimiter's content class
(`[^*]` for the asterisk forms, `[^_]` for the underscore forms). -/
def Delim.excl : Delim → Char
  | .a3 => '*'
  | .a2 => '*'
  | .a1 => '*'
  | .u2 => '_'
  | .u1 => '_'

/-- Bold flag assigned by the source's branch on the matched delimiter. -/
def Delim.isBold : Delim → Bool
  | .a3 => true
  | .a2 => true
  | .u2 => true
  | _ => false

/-- Italic flag assigned by the source's branch on the matched delimiter. -/
def Delim.isItalic : Delim → Bool
  | .a3 => true
  | .a1 => true
  | .u1 => true
  | _ => false

/-- Match a literal pattern at the start of the text, returning the rest. -/
def dropStart : List Char → List Char → Option (List Char)
  | [], t => some t
  | _ :: _, [] => none
  | p :: ps, c :: cs => if c = p then dropStart ps cs else none

/-- Match one alternative `D([^x]+)D` (delimiter, non-empty content not
containing the excluded character, delimiter) at the start of the text.
The `[^x]+` class cannot contain the delimiter character itself, so the
regex engine's greedy match with backtracking is exactly: take the maximal
run of non-excluded characters, then require the closing delimiter. -/
def tryDelim (d : Delim) (t : List Char) : Option (List Char × List Char) :=
  match dropStart d.str t with
  | none => none
  | some t1 =>
    let content := t1.takeWhile (fun c => c != d.excl)
    if content = [] then none
    else
      match dropStart d.str (t1.dropWhile (fun c => c != d.excl)) with
      | none => none
      | some r => some (content, r)

/-- Try the five alternatives at the current position in the pattern's
order, as the regex alternation does. -/
def matchHere (t : List Char) : Option (Delim × List Char × List Char) :=
  match tryDelim .a3 t with
  | some (c, r) => some (.a3, c, r)
  | none =>
    match tryDelim .a2 t with
    | some (c, r) => some (.a2, c, r)
    | none =>
      match tryDelim .a1 t with
      | some (c, r) => some (.a1, c, r)
      | none =>
        match tryDelim .u2 t with
        | some (c, r) => some (.u2, c, r)
        | none =>
          match tryDelim .u1 t with
          | some (c, r) => some (.u1, c, r)
          | none => none

/-- Leftmost match of the inline pattern (`re.finditer`'s scan): the gap
before the match, the matched delimiter, its content, and the rest. -/
def findFirst : List Char → Option (List Char × Delim × List Char × List Char)
  | [] => none
  | c :: cs =>
    match matchHere (c :: cs) with
    | some (d, ct, rest) => some ([], d, ct, rest)
    | none =>
      match findFirst cs with
      | some (g, d, ct, rest) => some (c :: g, d, ct, rest)
      | none => none

/-- The `for match in re.finditer(...)` loop of `_parse_inline_formatting`:
emit the gap before each match as a plain run and the match's content as a
styled run; after the last match, emit the leftover as a plain run.  Fuel
bounds the number of matches; each match consumes at least three characters,
so fuel `t.length` always suffices. -/
def fmtGo : Nat → List Char → List StyledRun
  | 0, _ => []
  | n + 1, t =>
    match findFirst t with
    | none => if t = [] then [] else [⟨t, false, false⟩]
    | some (gap, d, c, rest) =>
      (if gap = [] then [] else [⟨gap, false, false⟩]) ++
        ⟨c, d.isBold, d.isItalic⟩ :: fmtGo n rest

namespace MarkdownParser

/-- The source's `_parse_inline_formatting`: run the finditer loop; if no
part was produced (empty input, no match), return the whole text as one
plain run. -/
def _parse_inline_formatting (t : List Char) : List StyledRun :=
  let ps := fmtGo t.length t
  if ps = [] then [⟨t, false, false⟩] else ps

end MarkdownParser

/-- List kind: `'unordered'` or `'ordered'`. -/
inductive LType | unordered | ordered
deriving DecidableEq, Repr

/-- One list item dict `{'content': ..., 'type': ...}`. -/
structure LItem where
  content : List Char
  itype : LType
deriving DecidableEq, Repr

/-- A parsed block element, the tagged dicts appended to `elements` by
`MarkdownParser.parse`. -/
inductive Element
  | heading (level : Nat) (content : List Char)
  | paragraph (content : List Char) (formatted_parts : List StyledRun)
  | code (content : List Char) (language : List Char)
  | image (alt : List Char) (url : List Char)
  | table (headers : List (List Char)) (rows : List (List (List Char)))
  | list (list_type : Option LType) (items : List LItem)
deriving DecidableEq, Repr

namespace MarkdownParser

/-- The source's `_is_table_row`: `'|' in line and line.strip().startswith('|')
or line.count('|') >= 2` with Python's operator precedence
(`(A and B) or C`). -/
def _is_table_row (line : List Char) : Bool :=
  (line.contains '|' && (pyStrip line).head? == some '|') || 2 ≤ line.count '|'

/-- The source's `_is_table_separator`: the stripped line is a table row and
removing every `|`, `-`, `:` and space character leaves nothing. -/
def _is_table_separator (line : List Char) : Bool :=
  let s := pyStrip line
  _is_table_row s &&
    (s.filter (fun c => !(c == '|' || c == '-' || c == ':' || c == ' '))).isEmpty

/-- The source's `_parse_table_row`: strip, drop one leading and one trailing
`|` if present, split on `|`, strip each cell. -/
def _parse_table_row (line : List Char) : List (List Char) :=
  let l0 := pyStrip line
  let l1 := if l0.head? = some '|' then l0.tail else l0
  let l2 := if l1.getLast? = some '|' then l1.dropLast else l1
  (splitOnChar '|' l2).map pyStrip

/-- The source's `_parse_table`, acting on the suffix of lines starting at
the current cursor.  Collect the maximal run of table-row lines; fewer than
two rows, or a second row that is not a separator row, aborts with `none`
and next index `start_idx + 1` (the tail of the suffix); otherwise the
element and the suffix after the collected rows are returned. -/
def _parse_table (ls : List (List Char)) : Option Element × List (List Char) :=
  let collected := ls.takeWhile _is_table_row
  let rest := ls.dropWhile _is_table_row
  match collected with
  | l0 :: l1 :: tl =>
    if _is_table_separator l1 then
      (some (Element.table (_parse_table_row l0)
        ((tl.filter (fun l => !(pyStrip l).isEmpty)).map _parse_table_row)), rest)
    else (none, ls.tail)
  | _ => (none, ls.tail)

/-- Group `\s+(.+)$` of the heading and list-item regexes, applied after the
leading marker: requires at least one `\s` character followed by at least one
further character (`.` matches anything here, lines never contain a newline).
The greedy `\s+` takes the maximal whitespace run; if nothing is left for
`.+`, backtracking gives one whitespace character back, so the group is then
the last character of the text. -/
def wsPlusContent (s : List Char) : Option (List Char) :=
  match s with
  | [] => none
  | c :: _ =>
    if isPySpace c ∧ 2 ≤ s.length then
      let t := s.dropWhile isPySpace
      some (if t = [] then (match s.reverse with | x :: _ => [x] | [] => []) else t)
    else none

/-- The heading regex `^(#{1,6})\s+(.+)$` on the raw line: between one and
six leading `#` characters (a seventh `#` makes every backtracking attempt
place a `#` where `\s` is required, so the match fails), then `\s+(.+)$`.
Returns the level and the stripped group-2 text, as `parse` uses them. -/
def headingMatch (line : List Char) : Option (Nat × List Char) :=
  let hashes := line.takeWhile (fun c => c == '#')
  if 1 ≤ hashes.length ∧ hashes.length ≤ 6 then
    match wsPlusContent (line.dropWhile (fun c => c == '#')) with
    | some g => some (hashes.length, pyStrip g)
    | none => none
  else none

/-- The unordered-list regex `^([-*+])\s+(.+)$` on the stripped line. -/
def unorderedMatch (s : List Char) : Option (List Char) :=
  match s with
  | c :: rest =>
    if c = '-' ∨ c = '*' ∨ c = '+' then wsPlusContent rest else none
  | [] => none

/-- The ordered-list regex `^\d+\.\s+(.+)$` on the stripped line (digits
modelled as ASCII digits). -/
def orderedMatch (s : List Char) : Option (List Char) :=
  let ds := s.takeWhile Char.isDigit
  match s.dropWhile Char.isDigit with
  | c :: rest => if c = '.' then (if ds = [] then none else wsPlusContent rest) else none
  | [] => none

/-- The source's `_is_list_item`: try the unordered pattern, then the
ordered one, on the stripped line; return the kind and the item content
(regex group 2 resp. 1, unstripped). -/
def _is_list_item (line : List Char) : Option (LType × List Char) :=
  let s := pyStrip line
  match unorderedMatch s with
  | some g => some (LType.unordered, g)
  | none =>
    match orderedMatch s with
    | some g => some (LType.ordered, g)
    | none => none

/-- The `while` loop of `_parse_table`'s sibling `_parse_list`, on the line
suffix: consume same-typed items; a blank line is absorbed when the next
line is non-blank and a list item of any kind, and ends the list otherwise;
a differently-typed item or any other non-blank line ends the list.  Returns
the collected items, the locked type, and the suffix at the break point. -/
def parseListGo : List (List Char) → Option LType → List LItem →
    List LItem × Option LType × List (List Char)
  | [], lt, items => (items, lt, [])
  | line :: rest, lt, items =>
    match _is_list_item line with
    | some (ty, content) =>
      let lt2 := match lt with | none => ty | some t0 => t0
      if ty = lt2 then parseListGo rest (some lt2) (items ++ [⟨content, ty⟩])
      else (items, lt, line :: rest)
    | none =>
      if pyStrip line = [] then
        match rest with
        | [] => (items, lt, line :: rest)
        | nxt :: _ =>
          if pyStrip nxt = [] then (items, lt, line :: rest)
          else
            match _is_list_item nxt with
            | some _ => parseListGo rest lt items
            | none => (items, lt, line :: rest)
      else (items, lt, line :: rest)

/-- The source's `_parse_list` on the line suffix: run the loop; with no
collected items return `none` and `start_idx + 1`, otherwise the element
and the suffix where the loop stopped. -/
def _parse_list (ls : List (List Char)) : Option Element × List (List Char) :=
  match parseListGo ls none [] with
  | ([], _, _) => (none, ls.tail)
  | (it :: its, lt, rem) => (some (Element.list lt (it :: its)), rem)

/-- The standalone-image regex `^!\[([^\]]*)\]\(([^\)]+)\)\s*$` on the raw
line: `![`, an alt without `]`, `](`, a non-empty url without `)`, `)`,
then only whitespace to the end. -/
def imgLineMatch (line : List Char) : Option (List Char × List Char) :=
  match line with
  | c1 :: c2 :: rest =>
    if c1 = '!' ∧ c2 = '[' then
      let alt := rest.takeWhile (fun c => c != ']')
      match rest.dropWhile (fun c => c != ']') with
      | d1 :: d2 :: r2 =>
        if d1 = ']' ∧ d2 = '(' then
          let url := r2.takeWhile (fun c => c != ')')
          match r2.dropWhile (fun c => c != ')') with
          | e1 :: r3 =>
            if e1 = ')' ∧ url ≠ [] ∧ r3.all isPySpace then some (alt, url)
            else none
          | [] => none
        else none
      | _ => none
    else none
  | _ => none

/-- The unanchored image pattern `!\[([^\]]*)\]\(([^\)]+)\)` matched at the
current position: alt, url and the rest of the text. -/
def imgHere (t : List Char) : Option (List Char × List Char × List Char) :=
  match t with
  | c1 :: c2 :: rest =>
    if c1 = '!' ∧ c2 = '[' then
      let alt := rest.takeWhile (fun c => c != ']')
      match rest.dropWhile (fun c => c != ']') with
      | d1 :: d2 :: r2 =>
        if d1 = ']' ∧ d2 = '(' then
          let url := r2.takeWhile (fun c => c != ')')
          match r2.dropWhile (fun c => c != ')') with
          | e1 :: r3 => if e1 = ')' ∧ url ≠ [] then some (alt, url, r3) else none
          | [] => none
        else none
      | _ => none
    else none
  | _ => none

/-- Leftmost match of the unanchored image pattern (`re.search`): the text
before the match, the alt, the url, and the rest. -/
def findImg : List Char → Option (List Char × List Char × List Char × List Char)
  | [] => none
  | c :: cs =>
    match imgHere (c :: cs) with
    | some (alt, url, rest) => some ([], alt, url, rest)
    | none =>
      match findImg cs with
      | some (pre, alt, url, rest) => some (c :: pre, alt, url, rest)
      | none => none

/-- Left-to-right split of the text at every image match, as
`re.split(img_pattern, text)` with its two capture groups produces: the
leading-text/alt/url triples and the trailing text.  Fuel bounds the number
of matches; each consumes at least six characters, so `t.length` suffices. -/
def splitImgs : Nat → List Char → List (List Char × List Char × List Char) × List Char
  | 0, t => ([], t)
  | n + 1, t =>
    match findImg t with
    | none => ([], t)
    | some (pre, alt, url, rest) =>
      let (segs, tail) := splitImgs n rest
      ((pre, alt, url) :: segs, tail)

/-- The fence-toggle test `line.strip().startswith('```')`. -/
def fenceToggle (line : List Char) : Bool :=
  [bt, bt, bt].isPrefixOf (pyStrip line)

/-- The predicate of the paragraph-accumulation loop: a line is consumed
while it is non-blank and matches none of: raw `startswith('#')`, fence
toggle, table row, list item, standalone image. -/
def paraLine (line : List Char) : Bool :=
  !(pyStrip line).isEmpty && !(line.head? == some '#') && !fenceToggle line &&
    !_is_table_row line && (_is_list_item line).isNone && (imgLineMatch line).isNone

/-- Emit the elements for one accumulated paragraph span: if the span
contains an inline image marker, split it and emit a paragraph for each
non-blank text part (stripped, inline-formatted) and an image for each
marker; otherwise one paragraph for the whole (unstripped) span. -/
def paraEmit (text : List Char) : List Element :=
  match findImg text with
  | none => [Element.paragraph text (_parse_inline_formatting text)]
  | some _ =>
    let (segs, tail) := splitImgs text.length text
    (segs.map (fun s =>
      (if (pyStrip s.1).isEmpty then [] else
        [Element.paragraph (pyStrip s.1) (_parse_inline_formatting (pyStrip s.1))]) ++
      [Element.image s.2.1 s.2.2])).flatten ++
    (if (pyStrip tail).isEmpty then [] else
      [Element.paragraph (pyStrip tail) (_parse_inline_formatting (pyStrip tail))])

/-- The mutable state of `parse`'s `while` loop: the unconsumed line suffix
(`self.lines[i:]`), the fence flag, the accumulated code lines and language
tag, and the elements emitted so far. -/
structure PState where
  rem : List (List Char)
  inCode : Bool
  codeLines : List (List Char)
  codeLang : List Char
  elements : List Element
deriving DecidableEq, Repr

/-- Branches of the loop body from the standalone-image check on. -/
def stepImage (s : PState) (line : List Char) (rest : List (List Char)) : PState :=
  match imgLineMatch line with
  | some (alt, url) =>
    { s with elements := s.elements ++ [Element.image alt url], rem := rest }
  | none =>
    if pyStrip line = [] then { s with rem := rest }
    else
      let plines := (line :: rest).takeWhile paraLine
      let rest2 := (line :: rest).dropWhile paraLine
      if plines = [] then s
      else
        { s with elements := s.elements ++ paraEmit (joinWith ' ' plines), rem := rest2 }

/-- Branches of the loop body from the list check on. -/
def stepList (s : PState) (line : List Char) (rest : List (List Char)) : PState :=
  match _is_list_item line with
  | some _ =>
    match _parse_list (line :: rest) with
    | (some el, rem2) => { s with elements := s.elements ++ [el], rem := rem2 }
    | (none, _) => stepImage s line rest
  | none => stepImage s line rest

/-- Branches of the loop body from the table check on. -/
def stepTable (s : PState) (line : List Char) (rest : List (List Char)) : PState :=
  if _is_table_row line then
    match _parse_table (line :: rest) with
    | (some el, rem2) => { s with elements := s.elements ++ [el], rem := rem2 }
    | (none, _) => stepList s line rest
  else stepList s line rest

/-- One iteration of `parse`'s `while` loop (only meaningful when lines
remain): fence toggle, code-line accumulation, heading, table, list,
standalone image, blank line, paragraph fallback, in the source's order.
When the paragraph fallback collects no line (the aborted-table /
heading-like-line corner), the state — cursor included — is unchanged. -/
def stepFn (s : PState) : PState :=
  match s.rem with
  | [] => s
  | line :: rest =>
    if fenceToggle line then
      if s.inCode then
        { s with inCode := false,
                 elements := s.elements ++
                   [Element.code (joinWith '\n' s.codeLines) s.codeLang],
                 codeLines := [], codeLang := [], rem := rest }
      else
        { s with inCode := true, codeLines := [],
                 codeLang := pyStrip ((pyStrip line).drop 3), rem := rest }
    else if s.inCode then
      { s with codeLines := s.codeLines ++ [line], rem := rest }
    else
      match headingMatch line with
      | some (lvl, txt) =>
        { s with elements := s.elements ++ [Element.heading lvl txt], rem := rest }
      | none => stepTable s line rest

/-- Fuel-indexed driver of the `while i < len(self.lines)` loop: `none`
means the fuel ran out before the cursor reached the end (with fuel
`lines.length + 1` that happens exactly when the loop is stuck forever). -/
def parseFuel : Nat → PState → Option (List Element)
  | 0, _ => none
  | n + 1, s =>
    match s.rem with
    | [] => some s.elements
    | _ :: _ => parseFuel n (stepFn s)

/-- Initial loop state for a given markdown content. -/
def initState (content : List Char) : PState :=
  { rem := splitOnChar '\n' content, inCode := false, codeLines := [],
    codeLang := [], elements := [] }

/-- The source's `MarkdownParser.parse`: split the content into lines and
run the loop.  Every loop iteration that is not stuck consumes at least one
line, so fuel `lines.length + 1` returns `some` exactly on the inputs on
which the Python loop terminates. -/
def parse (content : List Char) : Option (List Element) :=
  parseFuel ((splitOnChar '\n' content).length + 1) (initState content)

end MarkdownParser

open MarkdownParser

/-- When one loop iteration leaves the state (cursor included) unchanged
while lines remain, the loop never finishes, whatever the fuel. -/
theorem parseFuel_stuck (s : PState) (h1 : s.rem ≠ []) (h2 : stepFn s = s) :
    ∀ n, parseFuel n s = none := by
  intro n
  induction n with
  | zero => rfl
  | succ k ih =>
    cases hr : s.rem with
    | nil => exact absurd hr h1
    | cons a t =>
      simp only [parseFuel, hr, h2]
      exact ih

/-- C1: the claim says `parse` is total and terminating for every input,
with the line cursor always advancing and aborted table interpretations
degrading to paragraphs.  The code violates this: on the input `"| a"` the
line satisfies the table-row heuristic, `_parse_table` aborts (only one
collected row) and `parse` ignores the returned fallback index; the line is
not a list item, image or blank, and the paragraph loop breaks immediately
on table-row lines without consuming anything, so the loop body leaves the
state unchanged and the `while` loop runs forever. -/
theorem C1_parse_diverges_on_aborted_table :
    MarkdownParser.parse ("| a".toList) = none ∧
    ∀ fuel, parseFuel fuel (initState ("| a".toList)) = none := by
  refine ⟨by decide, parseFuel_stuck _ (by decide) (by decide)⟩

/-- C2: the claim says that whenever the table check fails (fewer than two
collected rows or a non-separator second row) the tentatively consumed
table-row lines are re-scanned as ordinary content, advancing one line, and
end up in paragraph elements with no `Table` emitted.  The code violates
this: on `"| a |\n| b |"` both lines are collected, the second is not a
separator row, `_parse_table` aborts — and `parse` discards the fallback
index `start_idx + 1`, after which the paragraph loop refuses table-row
lines, so no element is ever emitted and the loop never terminates. -/
theorem C2_aborted_table_diverges :
    MarkdownParser.parse ("| a |\n| b |".toList) = none ∧
    ∀ fuel, parseFuel fuel (initState ("| a |\n| b |".toList)) = none := by
  refine ⟨by decide, parseFuel_stuck _ (by decide) (by decide)⟩

/-- C8: a single blank line between two list items of the same kind is
absorbed (one `List` with both items, for unordered and ordered alike); two
consecutive blank lines end the list (two separate `List` elements); an item
of the other kind ends the list; a non-list non-blank line ends the list. -/
theorem C8_list_blank_boundaries :
    MarkdownParser.parse ("- a\n\n- b".toList) =
      some [Element.list (some LType.unordered)
        [⟨"a".toList, LType.unordered⟩, ⟨"b".toList, LType.unordered⟩]] ∧
    MarkdownParser.parse ("1. a\n\n2. b".toList) =
      some [Element.list (some LType.ordered)
        [⟨"a".toList, LType.ordered⟩, ⟨"b".toList, LType.ordered⟩]] ∧
    MarkdownParser.parse ("- a\n\n\n- b".toList) =
      some [Element.list (some LType.unordered) [⟨"a".toList, LType.unordered⟩],
            Element.list (some LType.unordered) [⟨"b".toList, LType.unordered⟩]] ∧
    MarkdownParser.parse ("- a\n\n1. b".toList) =
      some [Element.list (some LType.unordered) [⟨"a".toList, LType.unordered⟩],
            Element.list (some LType.ordered) [⟨"b".toList, LType.ordered⟩]] ∧
    MarkdownParser.parse ("- a\nx".toList) =
      some [Element.list (some LType.unordered) [⟨"a".toList, LType.unordered⟩],
            Element.paragraph ("x".toList) [⟨"x".toList, false, false⟩]] := by
  refine ⟨by decide, by decide, by decide, by decide, by decide⟩

/-- Soundness of literal-pattern matching: the rest is what follows the
pattern. -/
theorem dropStart_sound (p : List Char) :
    ∀ t r, dropStart p t = some r → t = p ++ r := by
  induction p with
  | nil => intro t r h; simp only [dropStart, Option.some.injEq] at h; simp [h]
  | cons x xs ih =>
    intro t r h
    cases t with
    | nil => simp [dropStart] at h
    | cons c cs =>
      simp only [dropStart] at h
      by_cases hcx : c = x
      · rw [if_pos hcx] at h
        subst hcx
        simpa using ih cs r h
      · rw [if_neg hcx] at h; exact absurd h (by simp)

/-- Every delimiter string is non-empty. -/
theorem Delim.str_length_pos (d : Delim) : 1 ≤ d.str.length := by
  cases d <;> simp [Delim.str]

/-- Soundness of one alternative: the input decomposes as delimiter,
non-empty content free of the excluded character, delimiter, rest. -/
theorem tryDelim_sound (d : Delim) (t c r : List Char)
    (h : tryDelim d t = some (c, r)) :
    t = d.str ++ c ++ d.str ++ r ∧ c ≠ [] ∧ ∀ x ∈ c, x ≠ d.excl := by
  unfold tryDelim at h
  cases h1 : dropStart d.str t with
  | none => rw [h1] at h; exact absurd h (by simp)
  | some t1 =>
    rw [h1] at h
    simp only at h
    by_cases hc : t1.takeWhile (fun x => x != d.excl) = []
    · rw [if_pos hc] at h; exact absurd h (by simp)
    · rw [if_neg hc] at h
      cases h2 : dropStart d.str (t1.dropWhile (fun x => x != d.excl)) with
      | none => rw [h2] at h; exact absurd h (by simp)
      | some r2 =>
        rw [h2] at h
        simp only [Option.some.injEq, Prod.mk.injEq] at h
        obtain ⟨hceq, hreq⟩ := h
        subst hceq hreq
        refine ⟨?_, hc, ?_⟩
        · have ht : t = d.str ++ t1 := dropStart_sound _ _ _ h1
          have hd : t1.dropWhile (fun x => x != d.excl) = d.str ++ r2 :=
            dropStart_sound _ _ _ h2
          have ht1 : t1 = t1.takeWhile (fun x => x != d.excl) ++ (d.str ++ r2) := by
            conv_lhs => rw [← List.takeWhile_append_dropWhile
              (fun x => x != d.excl) t1]
            rw [hd]
          rw [ht]
          conv_lhs => rw [ht1]
          simp [List.append_assoc]
        · intro x hx
          have := List.mem_takeWhile_imp hx
          simpa using this

/-- Soundness of the alternation: same decomposition, for whichever
alternative matched. -/
theorem matchHere_sound (t : List Char) (d : Delim) (c r : List Char)
    (h : matchHere t = some (d, c, r)) :
    t = d.str ++ c ++ d.str ++ r ∧ c ≠ [] ∧ ∀ x ∈ c, x ≠ d.excl := by
  unfold matchHere at h
  cases h3 : tryDelim .a3 t with
  | some p => rw [h3] at h; simp only [Option.some.injEq, Prod.mk.injEq] at h;
              obtain ⟨hd, hc, hr⟩ := h; subst hd hc hr;
              exact tryDelim_sound _ _ _ _ h3
  | none =>
    rw [h3] at h; simp only at h
    cases h2 : tryDelim .a2 t with
    | some p => rw [h2] at h; simp only [Option.some.injEq, Prod.mk.injEq] at h;
                obtain ⟨hd, hc, hr⟩ := h; subst hd hc hr;
                exact tryDelim_sound _ _ _ _ h2
    | none =>
      rw [h2] at h; simp only at h
      cases h1 : tryDelim .a1 t with
      | some p => rw [h1] at h; simp only [Option.some.injEq, Prod.mk.injEq] at h;
                  obtain ⟨hd, hc, hr⟩ := h; subst hd hc hr;
                  exact tryDelim_sound _ _ _ _ h1
      | none =>
        rw [h1] at h; simp only at h
        cases h5 : tryDelim .u2 t with
        | some p => rw [h5] at h; simp only [Option.some.injEq, Prod.mk.injEq] at h;
                    obtain ⟨hd, hc, hr⟩ := h; subst hd hc hr;
                    exact tryDelim_sound _ _ _ _ h5
        | none =>
          rw [h5] at h; simp only at h
          cases h6 : tryDelim .u1 t with
          | some p => rw [h6] at h; simp only [Option.some.injEq, Prod.mk.injEq] at h;
                      obtain ⟨hd, hc, hr⟩ := h; subst hd hc hr;
                      exact tryDelim_sound _ _ _ _ h6
          | none => rw [h6] at h; exact absurd h (by simp)

/-- Soundness of the leftmost-match scan: the input decomposes as gap,
delimiter, content, delimiter, rest. -/
theorem findFirst_sound : ∀ t g d c r, findFirst t = some (g, d, c, r) →
    t = g ++ d.str ++ c ++ d.str ++ r ∧ c ≠ [] ∧ ∀ x ∈ c, x ≠ d.excl := by
  intro t
  induction t with
  | nil => intro g d c r h; simp [findFirst] at h
  | cons x xs ih =>
    intro g d c r h
    unfold findFirst at h
    cases hm : matchHere (x :: xs) with
    | some p =>
      rw [hm] at h
      obtain ⟨d0, c0, r0⟩ := p
      simp only [Option.some.injEq, Prod.mk.injEq] at h
      obtain ⟨hg, hd, hc, hr⟩ := h
      subst hg hd hc hr
      have := matchHere_sound _ _ _ _ hm
      simpa using this
    | none =>
      rw [hm] at h; simp only at h
      cases hf : findFirst xs with
      | some p =>
        rw [hf] at h
        obtain ⟨g0, d0, c0, r0⟩ := p
        simp only [Option.some.injEq, Prod.mk.injEq] at h
        obtain ⟨hg, hd, hc, hr⟩ := h
        subst hd hc hr
        have hx := ih g0 d0 c0 r0 hf
        subst hg
        refine ⟨?_, hx.2.1, hx.2.2⟩
        simpa using congrArg (x :: ·) hx.1
      | none => rw [hf] at h; exact absurd h (by simp)

/-- A match always consumes at least three characters. -/
theorem findFirst_rest_len (t g : List Char) (d : Delim) (c r : List Char)
    (h : findFirst t = some (g, d, c, r)) : r.length + 3 ≤ t.length := by
  obtain ⟨ht, hc, -⟩ := findFirst_sound t g d c r h
  have h1 : 1 ≤ d.str.length := Delim.str_length_pos d
  have h2 : 1 ≤ c.length := List.length_pos.2 hc
  have := congrArg List.length ht
  simp only [List.length_append] at this
  omega

/-- The round-trip invariant: the input splits into gap/delimiter/content
segments plus a trailing gap, and the concatenation of the produced runs is
exactly the input with the delimiter markers of the matched spans removed. -/
def InlineDecomp (T : List Char) (runs : List StyledRun) : Prop :=
  ∃ segs : List (List Char × Delim × List Char), ∃ tl : List Char,
    T = (segs.map (fun s => s.1 ++ s.2.1.str ++ s.2.2 ++ s.2.1.str)).flatten ++ tl ∧
    (runs.map StyledRun.text).flatten =
      (segs.map (fun s => s.1 ++ s.2.2)).flatten ++ tl ∧
    ∀ s ∈ segs, s.2.2 ≠ [] ∧ ∀ x ∈ s.2.2, x ≠ s.2.1.excl

/-- The finditer loop satisfies the round-trip invariant. -/
theorem fmtGo_decomp : ∀ n t, t.length ≤ n → InlineDecomp t (fmtGo n t) := by
  intro n
  induction n with
  | zero =>
    intro t ht
    have : t = [] := by
      cases t with
      | nil => rfl
      | cons a b => simp at ht
    subst this
    exact ⟨[], [], by simp, by simp [fmtGo], by simp⟩
  | succ k ih =>
    intro t ht
    cases hf : findFirst t with
    | none =>
      by_cases he : t = []
      · subst he
        exact ⟨[], [], by simp, by simp [fmtGo, hf], by simp⟩
      · refine ⟨[], t, by simp, ?_, by simp⟩
        simp [fmtGo, hf, he]
    | some p =>
      obtain ⟨g, d, c, r⟩ := p
      have hlen := findFirst_rest_len t g d c r hf
      have hr : r.length ≤ k := by omega
      obtain ⟨segs, tl, ih1, ih2, ih3⟩ := ih r hr
      obtain ⟨ht', hc, hmem⟩ := findFirst_sound t g d c r hf
      refine ⟨(g, d, c) :: segs, tl, ?_, ?_, ?_⟩
      · simp only [List.map_cons, List.flatten_cons]
        rw [ht', ih1]
        simp [List.append_assoc]
      · have hrun : (List.map StyledRun.text
            ((if g = [] then [] else [⟨g, false, false⟩]) ++
              ⟨c, d.isBold, d.isItalic⟩ :: fmtGo k r)).flatten =
            g ++ c ++ (List.map StyledRun.text (fmtGo k r)).flatten := by
          by_cases hg : g = []
          · subst hg; simp
          · simp [hg]
        simp only [fmtGo, hf]
        rw [hrun, ih2]
        simp [List.append_assoc]
      · intro s hs
        rcases List.mem_cons.1 hs with hs | hs
        · subst hs; exact ⟨hc, hmem⟩
        · exact ih3 s hs

/-- The finditer loop only produces no run at all on the empty input. -/
theorem fmtGo_eq_nil (t : List Char) (h : fmtGo t.length t = []) : t = [] := by
  cases t with
  | nil => rfl
  | cons a b =>
    simp only [List.length_cons, fmtGo] at h
    cases hf : findFirst (a :: b) with
    | none =>
      rw [hf] at h
      simp at h
    | some p =>
      obtain ⟨g, d, c, r⟩ := p
      rw [hf] at h
      simp at h

/-- C3: for every input text, concatenating the text fields of the runs
returned by the inline formatter reproduces the input with the formatting
delimiter markers of matched spans removed (witnessed by a decomposition
into gap/delimiter/content segments); and when the input contains no match
the formatter returns exactly one plain run holding the input unmodified. -/
theorem C3_inline_roundtrip (T : List Char) :
    InlineDecomp T (MarkdownParser._parse_inline_formatting T) ∧
    (findFirst T = none →
      MarkdownParser._parse_inline_formatting T = [⟨T, false, false⟩]) := by
  constructor
  · simp only [MarkdownParser._parse_inline_formatting]
    by_cases hps : fmtGo T.length T = []
    · have hT : T = [] := fmtGo_eq_nil T hps
      subst hT
      rw [hps]
      exact ⟨[], [], by simp, by simp, by simp⟩
    · rw [if_neg hps]
      exact fmtGo_decomp T.length T le_rfl
  · intro hf
    simp only [MarkdownParser._parse_inline_formatting]
    cases hT : T with
    | nil => simp [fmtGo]
    | cons a b =>
      rw [hT] at hf
      simp [fmtGo, hf]

/-- Witness for C3 at a concrete input. -/
theorem C3_inline_roundtrip_witness :
    InlineDecomp ("a **b** c".toList)
      (MarkdownParser._parse_inline_formatting ("a **b** c".toList)) ∧
    (findFirst ("a **b** c".toList) = none →
      MarkdownParser._parse_inline_formatting ("a **b** c".toList) =
        [⟨"a **b** c".toList, false, false⟩]) :=
  C3_inline_roundtrip ("a **b** c".toList)

/-- The head of a `dropWhile` result fails the predicate. -/
theorem dropWhile_head_false (p : Char → Bool) :
    ∀ (l : List Char) (a : Char) (t : List Char),
      List.dropWhile p l = a :: t → p a = false := by
  intro l
  induction l with
  | nil => intro a t h; simp at h
  | cons x xs ih =>
    intro a t h
    by_cases hx : p x = true
    · rw [List.dropWhile_cons, if_pos hx] at h
      exact ih a t h
    · rw [List.dropWhile_cons, if_neg hx] at h
      cases h
      simp at hx
      simp [hx]

/-- Right strip distributes over append: stripping the right part first. -/
theorem pyRstrip_append (x y : List Char) :
    pyRstrip (x ++ y) = if pyRstrip y = [] then pyRstrip x else x ++ pyRstrip y := by
  unfold pyRstrip
  rw [List.reverse_append, List.dropWhile_append]
  by_cases he : (y.reverse.dropWhile isPySpace).isEmpty
  · have h0 : y.reverse.dropWhile isPySpace = [] := by
      cases hy : y.reverse.dropWhile isPySpace with
      | nil => rfl
      | cons a t => rw [hy] at he; simp at he
    rw [if_pos he, if_pos (by rw [h0]; rfl)]
  · have h0 : y.reverse.dropWhile isPySpace ≠ [] := by
      intro hy; rw [hy] at he; simp at he
    rw [if_neg he, if_neg (by simpa using h0)]
    simp

/-- Right strip of an all-whitespace string is empty. -/
theorem pyRstrip_all_space (w : List Char) (h : ∀ x ∈ w, isPySpace x = true) :
    pyRstrip w = [] := by
  unfold pyRstrip
  have : w.reverse.dropWhile isPySpace = [] :=
    List.dropWhile_eq_nil_iff.2 (fun x hx => h x (List.mem_reverse.1 hx))
  rw [this]
  rfl

/-- Right strip keeps a non-whitespace head. -/
theorem pyRstrip_cons_nonspace (c : Char) (l : List Char) (h : isPySpace c = false) :
    pyRstrip (c :: l) = c :: pyRstrip l := by
  have := pyRstrip_append [c] l
  rw [List.singleton_append] at this
  rw [this]
  by_cases he : pyRstrip l = []
  · rw [if_pos he, he]
    unfold pyRstrip
    simp [List.dropWhile, h]
  · rw [if_neg he]
    simp

/-- Right strip is idempotent. -/
theorem pyRstrip_idem (l : List Char) : pyRstrip (pyRstrip l) = pyRstrip l := by
  unfold pyRstrip
  rw [List.reverse_reverse, List.dropWhile_idempotent]

/-- Stripping after a right strip is the same as stripping directly. -/
theorem pyStrip_pyRstrip (l : List Char) : pyStrip (pyRstrip l) = pyStrip l := by
  cases hd : l.dropWhile isPySpace with
  | nil =>
    have hall : ∀ x ∈ l, isPySpace x = true := fun x hx =>
      List.dropWhile_eq_nil_iff.1 hd x hx
    have h1 : pyRstrip l = [] := pyRstrip_all_space _ hall
    unfold pyStrip
    rw [h1, hd]
    rfl
  | cons a t =>
    have ha : isPySpace a = false := dropWhile_head_false isPySpace l a t hd
    have hw : ∀ x ∈ l.takeWhile isPySpace, isPySpace x = true := fun x hx =>
      List.mem_takeWhile_imp hx
    have hsplit : l = l.takeWhile isPySpace ++ (a :: t) := by
      conv_lhs => rw [← List.takeWhile_append_dropWhile isPySpace l]
      rw [hd]
    have h2 : pyRstrip l = l.takeWhile isPySpace ++ (a :: pyRstrip t) := by
      conv_lhs => rw [hsplit]
      rw [pyRstrip_append, pyRstrip_cons_nonspace a t ha]
      simp
    unfold pyStrip
    rw [h2, hd, List.dropWhile_append_of_pos hw, List.dropWhile_cons, if_neg (by simp [ha])]
    rw [pyRstrip_cons_nonspace a _ ha, pyRstrip_cons_nonspace a t ha, pyRstrip_idem]

/-- A pattern is a start of itself followed by anything (`isPrefixOf`). -/
theorem isPrefixOf_append_self : ∀ (p l : List Char), p.isPrefixOf (p ++ l) = true := by
  intro p
  induction p with
  | nil => intro l; simp [List.isPrefixOf]
  | cons x xs ih => intro l; simp [List.isPrefixOf, ih l]

/-- The backtick is not whitespace. -/
theorem bt_not_space : isPySpace bt = false := by decide

/-- Stripping an opening fence line `(three backticks)lang` keeps the
backticks and right-strips the tag. -/
theorem pyStrip_fence (lang : List Char) :
    pyStrip ([bt, bt, bt] ++ lang) = [bt, bt, bt] ++ pyRstrip lang := by
  unfold pyStrip
  rw [show ([bt, bt, bt] ++ lang = bt :: bt :: bt :: lang) by rfl,
    List.dropWhile_cons, if_neg (by simp [bt_not_space]),
    pyRstrip_cons_nonspace _ _ bt_not_space, pyRstrip_cons_nonspace _ _ bt_not_space,
    pyRstrip_cons_nonspace _ _ bt_not_space]
  rfl

/-- An opening fence line toggles the code-block mode for every tag. -/
theorem fenceToggle_fence (lang : List Char) :
    fenceToggle ([bt, bt, bt] ++ lang) = true := by
  unfold fenceToggle
  rw [pyStrip_fence]
  exact isPrefixOf_append_self [bt, bt, bt] (pyRstrip lang)

/-- The language tag captured by an opening fence line is the stripped tag. -/
theorem fenceLang (lang : List Char) :
    pyStrip ((pyStrip ([bt, bt, bt] ++ lang)).drop 3) = pyStrip lang := by
  rw [pyStrip_fence]
  rw [show (([bt, bt, bt] ++ pyRstrip lang).drop 3 = pyRstrip lang) by rfl]
  exact pyStrip_pyRstrip lang

/-- Splitting never produces an empty piece list. -/
theorem splitOnChar_ne_nil (sep : Char) : ∀ l, splitOnChar sep l ≠ [] := by
  intro l
  induction l with
  | nil => simp [splitOnChar]
  | cons c cs ih =>
    simp only [splitOnChar]
    cases hs : splitOnChar sep cs with
    | nil => exact absurd hs ih
    | cons a t =>
      by_cases hc : c = sep
      · simp [hc]
      · simp [hc]

/-- A separator-free string splits into itself. -/
theorem splitOnChar_no_sep (sep : Char) :
    ∀ l, sep ∉ l → splitOnChar sep l = [l] := by
  intro l
  induction l with
  | nil => intro h; rfl
  | cons c cs ih =>
    intro h
    have hc : c ≠ sep := fun he => h (by simp [he])
    have hcs : sep ∉ cs := fun hm => h (by simp [hm])
    simp only [splitOnChar, ih hcs]
    rw [if_neg hc]

/-- Splitting a separator-free piece, a separator, then a rest. -/
theorem splitOnChar_append (sep : Char) :
    ∀ a r, sep ∉ a → splitOnChar sep (a ++ sep :: r) = a :: splitOnChar sep r := by
  intro a
  induction a with
  | nil =>
    intro r h
    simp only [List.nil_append, splitOnChar]
    cases hs : splitOnChar sep r with
    | nil => exact absurd hs (splitOnChar_ne_nil sep r)
    | cons x t => simp
  | cons c cs ih =>
    intro r h
    have hc : c ≠ sep := fun he => h (by simp [he])
    have hcs : sep ∉ cs := fun hm => h (by simp [hm])
    simp only [List.cons_append, splitOnChar, List.append_eq, ih r hcs]
    rw [if_neg hc]

/-- Splitting a join of newline-free lines recovers the lines. -/
theorem splitOnChar_joinWith (sep : Char) :
    ∀ ls, ls ≠ [] → (∀ l ∈ ls, sep ∉ l) →
      splitOnChar sep (joinWith sep ls) = ls := by
  intro ls
  induction ls with
  | nil => intro h; exact absurd rfl h
  | cons l rest ih =>
    intro _ hmem
    cases rest with
    | nil => exact splitOnChar_no_sep sep l (hmem l (by simp))
    | cons l2 rest2 =>
      rw [show joinWith sep (l :: l2 :: rest2) = l ++ sep :: joinWith sep (l2 :: rest2) from rfl]
      rw [splitOnChar_append sep l _ (hmem l (by simp))]
      rw [ih (by simp) (fun x hx => hmem x (by simp [hx]))]

/-- The newline character is not a backtick. -/
theorem bt_ne_nl : bt ≠ '\n' := by decide

/-- One fuel unit drives exactly one loop iteration while lines remain. -/
theorem parseFuel_succ (n : Nat) (s : PState) (h : s.rem ≠ []) :
    parseFuel (n + 1) s = parseFuel n (stepFn s) := by
  cases hr : s.rem with
  | nil => exact absurd hr h
  | cons a t => simp [parseFuel, hr]

/-- With no lines left, one fuel unit returns the accumulated elements. -/
theorem parseFuel_done (n : Nat) (s : PState) (h : s.rem = []) :
    parseFuel (n + 1) s = some s.elements := by
  simp [parseFuel, h]

/-- Opening a fence from outside code mode: the step enters code mode with
the stripped tag and an empty body, consuming the opening line. -/
theorem stepFn_fence_open (lang : List Char) (rest : List (List Char))
    (cl : List (List Char)) (lg : List Char) (acc : List Element) :
    stepFn (PState.mk (([bt, bt, bt] ++ lang) :: rest) false cl lg acc) =
      PState.mk rest true [] (pyStrip lang) acc := by
  have h1 : fenceToggle (bt :: bt :: bt :: lang) = true := fenceToggle_fence lang
  have h2 : pyStrip (List.drop 3 (pyStrip (bt :: bt :: bt :: lang))) = pyStrip lang :=
    fenceLang lang
  simp [stepFn, h1, h2]

/-- Closing a fence from inside code mode: the step emits the accumulated
`Code` element and clears the fence state, consuming the closing line. -/
theorem stepFn_fence_close (rest : List (List Char)) (cl : List (List Char))
    (lg : List Char) (acc : List Element) :
    stepFn (PState.mk ([bt, bt, bt] :: rest) true cl lg acc) =
      PState.mk rest false [] [] (acc ++ [Element.code (joinWith '\n' cl) lg]) := by
  have hf : fenceToggle [bt, bt, bt] = true := by decide
  simp [stepFn, hf]

/-- In code-block mode, lines that are not fence toggles are accumulated
verbatim, one fuel unit and one line each. -/
theorem parseFuel_code_consume : ∀ (body : List (List Char)),
    (∀ bl ∈ body, fenceToggle bl = false) →
    ∀ (n : Nat) (cl : List (List Char)) (lg : List Char) (el : List Element)
      (rest : List (List Char)),
      parseFuel (body.length + n) (PState.mk (body ++ rest) true cl lg el) =
      parseFuel n (PState.mk rest true (cl ++ body) lg el) := by
  intro body
  induction body with
  | nil => intro _ n cl lg el rest; simp
  | cons b bs ih =>
    intro hb n cl lg el rest
    have hbf : fenceToggle b = false := hb b (by simp)
    have hbs : ∀ bl ∈ bs, fenceToggle bl = false := fun bl h => hb bl (by simp [h])
    rw [show (b :: bs).length + n = (bs.length + n) + 1 by simp; omega]
    rw [parseFuel_succ _ _ (by simp)]
    rw [show stepFn (PState.mk ((b :: bs) ++ rest) true cl lg el) =
        PState.mk (bs ++ rest) true (cl ++ [b]) lg el by simp [stepFn, hbf]]
    rw [ih hbs n (cl ++ [b]) lg el rest]
    simp

/-- C7: for every fenced code block — an opening fence line carrying a
language tag, arbitrary body lines (none of which toggles a fence), and a
closing fence line — `parse` yields exactly one `Code` element whose
language is the stripped tag and whose text is the body lines joined by
newlines, the fence lines excluded; the body lines are consumed opaquely,
never matched by any other rule. -/
theorem C7_fenced_code (lang : List Char) (body : List (List Char))
    (hlang : '\n' ∉ lang)
    (hbody : ∀ bl ∈ body, '\n' ∉ bl ∧ fenceToggle bl = false) :
    MarkdownParser.parse
        (joinWith '\n' (([bt, bt, bt] ++ lang) :: (body ++ [[bt, bt, bt]]))) =
      some [Element.code (joinWith '\n' body) (pyStrip lang)] := by
  have hsplit : splitOnChar '\n'
      (joinWith '\n' (([bt, bt, bt] ++ lang) :: (body ++ [[bt, bt, bt]]))) =
      ([bt, bt, bt] ++ lang) :: (body ++ [[bt, bt, bt]]) := by
    apply splitOnChar_joinWith
    · simp
    · intro l hl
      rcases List.mem_cons.1 hl with hl | hl
      · subst hl
        intro hmem
        rcases List.mem_append.1 hmem with hm | hm
        · simp at hm
          exact bt_ne_nl hm.symm
        · exact hlang hm
      · rcases List.mem_append.1 hl with hm | hm
        · intro hx; exact (hbody l hm).1 hx
        · simp at hm
          subst hm
          intro hx
          simp at hx
          exact bt_ne_nl hx.symm
  unfold MarkdownParser.parse initState
  rw [hsplit]
  rw [show (([bt, bt, bt] ++ lang) :: (body ++ [[bt, bt, bt]])).length + 1 =
      (body.length + 2) + 1 by simp]
  rw [parseFuel_succ _ _ (by simp)]
  rw [stepFn_fence_open lang (body ++ [[bt, bt, bt]]) [] [] []]
  rw [parseFuel_code_consume body (fun bl h => (hbody bl h).2) 2 [] (pyStrip lang) []
    [[bt, bt, bt]]]
  rw [List.nil_append body]
  rw [show (2 : Nat) = 1 + 1 from rfl]
  rw [parseFuel_succ _ _ (by simp)]
  rw [stepFn_fence_close [] body (pyStrip lang) []]
  rw [parseFuel_done 0 _ rfl]
  simp

/-- Witness for C7 at a concrete fenced block. -/
theorem C7_fenced_code_witness :
    MarkdownParser.parse
        (joinWith '\n' (([bt, bt, bt] ++ "py".toList) ::
          (["x = 1".toList, "y = 2".toList] ++ [[bt, bt, bt]]))) =
      some [Element.code (joinWith '\n' ["x = 1".toList, "y = 2".toList])
        (pyStrip "py".toList)] :=
  C7_fenced_code "py".toList ["x = 1".toList, "y = 2".toList]
    (by decide) (by decide)

/-- C10: when an opening fence is never closed, the scan ends while still
inside the fence and the accumulated language tag and body lines are
discarded entirely: the parse result is exactly the elements accumulated
before the fence, with no `Code` element — indeed no element of any kind —
for the content after the unmatched opening fence. -/
theorem C10_unclosed_fence_discarded :
    (∀ (lang : List Char) (body : List (List Char)) (acc : List Element)
        (cl : List (List Char)) (lg : List Char),
      (∀ bl ∈ body, fenceToggle bl = false) →
      parseFuel (body.length + 2)
        (PState.mk (([bt, bt, bt] ++ lang) :: body) false cl lg acc) = some acc) ∧
    (∀ (lang : List Char) (body : List (List Char)),
      '\n' ∉ lang →
      (∀ bl ∈ body, '\n' ∉ bl ∧ fenceToggle bl = false) →
      MarkdownParser.parse (joinWith '\n' (([bt, bt, bt] ++ lang) :: body)) =
        some []) := by
  have hstate : ∀ (lang : List Char) (body : List (List Char)) (acc : List Element)
      (cl : List (List Char)) (lg : List Char),
      (∀ bl ∈ body, fenceToggle bl = false) →
      parseFuel (body.length + 2)
        (PState.mk (([bt, bt, bt] ++ lang) :: body) false cl lg acc) = some acc := by
    intro lang body acc cl lg hb
    rw [show body.length + 2 = (body.length + 1) + 1 by omega]
    rw [parseFuel_succ _ _ (by simp)]
    rw [stepFn_fence_open lang body cl lg acc]
    have hcc := parseFuel_code_consume body hb 1 [] (pyStrip lang) acc []
    rw [List.append_nil body] at hcc
    rw [hcc]
    rfl
  refine ⟨hstate, ?_⟩
  intro lang body hlang hbody
  have hsplit : splitOnChar '\n' (joinWith '\n' (([bt, bt, bt] ++ lang) :: body)) =
      ([bt, bt, bt] ++ lang) :: body := by
    apply splitOnChar_joinWith
    · simp
    · intro l hl
      rcases List.mem_cons.1 hl with hl | hl
      · subst hl
        intro hmem
        rcases List.mem_append.1 hmem with hm | hm
        · simp at hm
          exact bt_ne_nl hm.symm
        · exact hlang hm
      · intro hx; exact (hbody l hl).1 hx
  unfold MarkdownParser.parse initState
  rw [hsplit]
  rw [show (([bt, bt, bt] ++ lang) :: body).length + 1 = body.length + 2 by simp]
  exact hstate lang body [] [] [] (fun bl h => (hbody bl h).2)

/-- Witness for C10 at a concrete unclosed fence. -/
theorem C10_unclosed_fence_discarded_witness :
    parseFuel (1 + 2)
      (PState.mk (([bt, bt, bt] ++ "py".toList) :: ["x = 1".toList]) false [] []
        [Element.heading 1 "t".toList]) =
      some [Element.heading 1 "t".toList] ∧
    MarkdownParser.parse (joinWith '\n' (([bt, bt, bt] ++ "py".toList) ::
        ["x = 1".toList])) = some [] := by
  constructor
  · exact C10_unclosed_fence_discarded.1 "py".toList ["x = 1".toList]
      [Element.heading 1 "t".toList] [] [] (by decide)
  · exact C10_unclosed_fence_discarded.2 "py".toList ["x = 1".toList]
      (by decide) (by decide)

/-- One rendered item appended to the output document (the kinds the image
branch of the renderer can produce). -/
inductive DocItem
  | paragraph (runs : List StyledRun)
  | picture (data : List Nat)
  | caption (text : List Char)
deriving DecidableEq, Repr

namespace DocxConverter

/-- The source's `add_paragraph`: with a truthy (non-empty) formatted-part
list, one run per part; otherwise a single plain run holding the text. -/
def add_paragraph (text : List Char) (fp : Option (List StyledRun))
    (doc : List DocItem) : List DocItem :=
  doc ++ [DocItem.paragraph (match fp with
    | some (p :: ps) => p :: ps
    | _ => [⟨text, false, false⟩])]

/-- The placeholder text of `add_image`'s failure paths, the f-string
`"[图片: " + (alt_text or url) + "]"` (Python `or`: the alt when non-empty,
else the url). -/
def placeholderText (alt url : List Char) : List Char :=
  "[图片: ".toList ++ (if alt = [] then url else alt) ++ "]".toList

/-- The source's `add_image`, with the fetch (`download_image`, returning
`None` on any network/file failure) and the decode check
(`PIL Image.open` + `verify`, raising on invalid data) as opaque oracles:
a failed fetch or a failed verification appends the placeholder paragraph
via `add_paragraph`; success embeds the picture and, when the alt text is
non-empty, a caption paragraph below it. -/
def add_image (dl : List Char → Option (List Nat)) (verifyImg : List Nat → Bool)
    (url alt : List Char) (doc : List DocItem) : List DocItem :=
  match dl url with
  | some bs =>
    if verifyImg bs then
      (doc ++ [DocItem.picture bs]) ++
        (if alt ≠ [] then [DocItem.caption ("图: ".toList ++ alt)] else [])
    else add_paragraph (placeholderText alt url) none doc
  | none => add_paragraph (placeholderText alt url) none doc

end DocxConverter

/-- C4 counterexample: the claim's placeholder literal is
`"[image: " + (alt or url) + "]"`, but the code writes the Chinese literal
`"[图片: " + (alt or url) + "]"`: rendering an image whose fetch fails does
not produce the claimed text. -/
theorem C4_placeholder_cex :
    DocxConverter.add_image (fun _ => none) (fun _ => true) "u".toList [] [] =
      [DocItem.paragraph [⟨"[图片: u]".toList, false, false⟩]] ∧
    DocxConverter.add_image (fun _ => none) (fun _ => true) "u".toList [] [] ≠
      [DocItem.paragraph [⟨"[image: u]".toList, false, false⟩]] := by
  exact ⟨by decide, by decide⟩

/-- C4 (amended): for every image whose fetch fails or whose fetched bytes
fail verification, the renderer never raises and appends exactly one
placeholder paragraph whose text is `"[图片: " + (alt if non-empty else
url) + "]"`; the placeholder depends only on the alt and url, so every such
failed rendering of the element produces the identical text. -/
theorem C4_placeholder_amended (dl : List Char → Option (List Nat))
    (verifyImg : List Nat → Bool) (url alt : List Char) (doc : List DocItem) :
    (dl url = none →
      DocxConverter.add_image dl verifyImg url alt doc =
        doc ++ [DocItem.paragraph
          [⟨DocxConverter.placeholderText alt url, false, false⟩]]) ∧
    (∀ bs, dl url = some bs → verifyImg bs = false →
      DocxConverter.add_image dl verifyImg url alt doc =
        doc ++ [DocItem.paragraph
          [⟨DocxConverter.placeholderText alt url, false, false⟩]]) := by
  constructor
  · intro h
    simp [DocxConverter.add_image, h, DocxConverter.add_paragraph]
  · intro bs h hv
    simp [DocxConverter.add_image, h, hv, DocxConverter.add_paragraph]

/-- Witness for the amended C4 at a concrete failing fetch. -/
theorem C4_placeholder_amended_witness :
    DocxConverter.add_image (fun _ => none) (fun _ => true) "u".toList
        "alt".toList [] =
      [DocItem.paragraph
        [⟨DocxConverter.placeholderText "alt".toList "u".toList, false, false⟩]] :=
  (C4_placeholder_amended (fun _ => none) (fun _ => true) "u".toList
    "alt".toList []).1 rfl

/-- Python exception values, as an opaque error type. -/
inductive PyErr | typeError | generic
deriving DecidableEq, Repr

/-- The source's `convert_md_to_docx`, with the docx build
(`DocxConverter.convert`) and the serialization (`document.save` to a byte
stream) as opaque fallible oracles — `Except.error` models a raised
exception.  Parsing is the embedded `MarkdownParser.parse`; the outer
`none` models the call never returning because the parse loop diverges.
The `try/except` returns `(0, None)` on any raised exception and
`(1, bytes)` on success. -/
def convert_md_to_docx {δ : Type} (buildDoc : List Element → Except PyErr δ)
    (saveDoc : δ → Except PyErr (List Nat)) (md : List Char) :
    Option (Nat × Option (List Nat)) :=
  match MarkdownParser.parse md with
  | none => none
  | some els =>
    match buildDoc els >>= saveDoc with
    | Except.ok bs => some (1, some bs)
    | Except.error _ => some (0, none)

/-- C5: whenever the pipeline returns at all (the parse loop terminates),
any exception raised in the render or serialize stages is caught at the
orchestrator boundary and collapsed to the failure signal `(0, none)` —
no exception propagates and no partial output is returned; on success the
result is `(1, some bytes)`; and these two signals are the only possible
results. -/
theorem C5_orchestrator_containment {δ : Type}
    (buildDoc : List Element → Except PyErr δ)
    (saveDoc : δ → Except PyErr (List Nat)) (md : List Char)
    (els : List Element) (h : MarkdownParser.parse md = some els) :
    (∀ e, buildDoc els >>= saveDoc = Except.error e →
      convert_md_to_docx buildDoc saveDoc md = some (0, none)) ∧
    (∀ bs, buildDoc els >>= saveDoc = Except.ok bs →
      convert_md_to_docx buildDoc saveDoc md = some (1, some bs)) ∧
    (convert_md_to_docx buildDoc saveDoc md = some (0, none) ∨
      ∃ bs, convert_md_to_docx buildDoc saveDoc md = some (1, some bs)) := by
  cases hr : buildDoc els >>= saveDoc with
  | ok bs =>
    refine ⟨?_, ?_, ?_⟩
    · intro e he
      exact absurd he (by simp)
    · intro bs2 hb
      simp only [Except.ok.injEq] at hb
      subst hb
      simp [convert_md_to_docx, h, hr]
    · exact Or.inr ⟨bs, by simp [convert_md_to_docx, h, hr]⟩
  | error e =>
    refine ⟨?_, ?_, ?_⟩
    · intro e2 he
      simp [convert_md_to_docx, h, hr]
    · intro bs hb
      exact absurd hb (by simp)
    · exact Or.inl (by simp [convert_md_to_docx, h, hr])

/-- Witness for C5: a forced render failure on a parsed input yields the
failure signal. -/
theorem C5_orchestrator_containment_witness :
    convert_md_to_docx (fun _ => (Except.error PyErr.generic : Except PyErr Unit))
      (fun _ => Except.ok []) "hi".toList = some (0, none) :=
  (C5_orchestrator_containment (fun _ => Except.error PyErr.generic)
    (fun _ => Except.ok []) "hi".toList
    [Element.paragraph "hi".toList [⟨"hi".toList, false, false⟩]] (by decide)).1
    PyErr.generic rfl

/-- An output message yielded by the tool: text, or a binary blob with its
metadata. -/
inductive ToolMsg
  | text (s : List Char)
  | blob (bytes : Option (List Nat)) (mime : List Char) (filename : List Char)
deriving DecidableEq, Repr

/-- The tool's input mapping, reduced to the two keys the code reads
(`dict.get` returns `None` for an absent key). -/
structure ToolParams where
  content : Option (List Char)
  name : Option (List Char)

/-- The fixed docx MIME type attached to the blob message. -/
def mimeDocx : List Char :=
  "application/vnd.openxmlformats-officedocument.wordprocessingml.document".toList

/-- The input-validation message. -/
def noContentMsg : List Char := "No markdown content provided.".toList

namespace Md2docxTool

/-- The source's `Md2docxTool._invoke`, with the conversion pipeline as an
opaque oracle.  Python evaluates `tool_parameters.get('name') + ".docx"`
before checking the content, so a missing `name` raises a `TypeError`
(modelled as `Except.error`) before any message is yielded; a missing or
empty (falsy) `content` yields the single validation message and returns;
otherwise the pipeline runs and the tool yields the acknowledgment plus the
blob on status 1, or the single error message otherwise. -/
def _invoke (conv : List Char → Nat × Option (List Nat)) (p : ToolParams) :
    Except PyErr (List ToolMsg) :=
  match p.name with
  | none => Except.error PyErr.typeError
  | some nm =>
    let outName := nm ++ ".docx".toList
    match p.content with
    | none => Except.ok [ToolMsg.text noContentMsg]
    | some c =>
      if c = [] then Except.ok [ToolMsg.text noContentMsg]
      else
        let r := conv c
        if r.1 = 1 then
          Except.ok [ToolMsg.text ("Document '".toList ++ outName ++
            "' generated successfully".toList),
            ToolMsg.blob r.2 mimeDocx outName]
        else Except.ok [ToolMsg.text ("Error converting markdown to DOCX".toList)]

end Md2docxTool

/-- C6 counterexample: on a mapping missing both `content` and `name`, the
invocation raises a `TypeError` (from `None + ".docx"`) before the content
check, so it does not yield the claimed validation message. -/
theorem C6_missing_name_cex :
    Md2docxTool._invoke (fun _ => (1, some [])) ⟨none, none⟩ =
      Except.error PyErr.typeError ∧
    Md2docxTool._invoke (fun _ => (1, some [])) ⟨none, none⟩ ≠
      Except.ok [ToolMsg.text noContentMsg] := by
  refine ⟨rfl, ?_⟩
  intro h
  exact Except.noConfusion h

/-- C6 (amended): for every input mapping whose `name` entry is present,
if the `content` entry is missing or empty the invocation yields exactly
the one validation message `"No markdown content provided."`, no binary
output — and the pipeline is not invoked: the result is the same for every
conversion oracle. -/
theorem C6_no_content_amended (conv : List Char → Nat × Option (List Nat))
    (nm : List Char) (copt : Option (List Char))
    (h : copt = none ∨ copt = some []) :
    Md2docxTool._invoke conv ⟨copt, some nm⟩ =
      Except.ok [ToolMsg.text noContentMsg] := by
  rcases h with h | h <;> subst h <;> simp [Md2docxTool._invoke]

/-- Witness for the amended C6 at a concrete mapping. -/
theorem C6_no_content_amended_witness :
    Md2docxTool._invoke (fun _ => (0, none)) ⟨none, some "out".toList⟩ =
      Except.ok [ToolMsg.text noContentMsg] :=
  C6_no_content_amended (fun _ => (0, none)) "out".toList none (Or.inl rfl)

/-- The exact character shape of a standalone image marker `![alt](url)`. -/
def imgCore (alt url : List Char) : List Char :=
  '!' :: '[' :: (alt ++ ']' :: '(' :: (url ++ [')']))

/-- A `takeWhile`/`dropWhile` pair splits exactly at the first stopper. -/
theorem takeWhile_stop (p : Char → Bool) :
    ∀ (xs : List Char) (y : Char) (ys : List Char),
      (∀ x ∈ xs, p x = true) → p y = false →
      List.takeWhile p (xs ++ y :: ys) = xs ∧
      List.dropWhile p (xs ++ y :: ys) = y :: ys := by
  intro xs
  induction xs with
  | nil =>
    intro y ys _ hy
    constructor
    · rw [List.nil_append, List.takeWhile_cons, if_neg (by simp [hy])]
    · rw [List.nil_append, List.dropWhile_cons, if_neg (by simp [hy])]
  | cons a as ih =>
    intro y ys hall hy
    have ha : p a = true := hall a (by simp)
    have has : ∀ x ∈ as, p x = true := fun x hx => hall x (by simp [hx])
    obtain ⟨iht, ihd⟩ := ih y ys has hy
    constructor
    · rw [List.cons_append, List.takeWhile_cons, if_pos (by simp [ha]), iht]
    · rw [List.cons_append, List.dropWhile_cons, if_pos (by simp [ha]), ihd]

/-- Strip of whitespace, a core with non-whitespace first and last
characters, and more whitespace is the core. -/
theorem pyStrip_sandwich (w1 core w2 : List Char) (c0 cz : Char) (ini : List Char)
    (h1 : ∀ c ∈ w1, isPySpace c = true) (h2 : ∀ c ∈ w2, isPySpace c = true)
    (hc0 : core.head? = some c0) (hc0s : isPySpace c0 = false)
    (hcz : core = ini ++ [cz]) (hczs : isPySpace cz = false) :
    pyStrip (w1 ++ core ++ w2) = core := by
  obtain ⟨core1, hcore1⟩ : ∃ core1, core = c0 :: core1 := by
    cases core with
    | nil => simp at hc0
    | cons x t => simp at hc0; exact ⟨t, by rw [hc0]⟩
  unfold pyStrip
  have hd : (w1 ++ core ++ w2).dropWhile isPySpace = core ++ w2 := by
    rw [List.append_assoc, List.dropWhile_append_of_pos h1, hcore1,
      List.cons_append, List.dropWhile_cons, if_neg (by simp [hc0s])]
  rw [hd, pyRstrip_append, pyRstrip_all_space w2 h2, if_pos rfl, hcz,
    pyRstrip_append]
  have hz : pyRstrip [cz] = [cz] := by
    unfold pyRstrip
    simp [List.dropWhile, hczs]
  rw [hz, if_neg (by simp)]

/-- No position inside a bang-free run can start an image match. -/
theorem imgHere_not_bang (c : Char) (t : List Char) (h : c ≠ '!') :
    imgHere (c :: t) = none := by
  cases t with
  | nil => rfl
  | cons c2 rest =>
    simp only [imgHere]
    rw [if_neg (by intro hx; exact h hx.1)]

/-- The anchored image regex needs a bang first. -/
theorem imgLineMatch_not_bang (c : Char) (t : List Char) (h : c ≠ '!') :
    imgLineMatch (c :: t) = none := by
  cases t with
  | nil => rfl
  | cons c2 rest =>
    simp only [imgLineMatch]
    rw [if_neg (by intro hx; exact h hx.1)]

/-- A whitespace character is not a bang. -/
theorem space_ne_bang (c : Char) (h : isPySpace c = true) : c ≠ '!' := by
  intro he
  subst he
  exact absurd h (by decide)

/-- A whitespace character is not a hash. -/
theorem space_ne_hash (c : Char) (h : isPySpace c = true) : c ≠ '#' := by
  intro he
  subst he
  exact absurd h (by decide)

/-- The unanchored image search skips a bang-free piece of text. -/
theorem findImg_skip (w : List Char) (hw : ∀ c ∈ w, c ≠ '!') :
    ∀ t, findImg (w ++ t) =
      match findImg t with
      | some (pre, a, u, r) => some (w ++ pre, a, u, r)
      | none => none := by
  induction w with
  | nil =>
    intro t
    rw [List.nil_append]
    cases h : findImg t with
    | none => simp
    | some q => obtain ⟨p, a, u, r⟩ := q; simp
  | cons c w' ih =>
    intro t
    have hc : c ≠ '!' := hw c (by simp)
    have hw' : ∀ x ∈ w', x ≠ '!' := fun x hx => hw x (by simp [hx])
    have iht := ih hw' t
    rw [List.cons_append]
    cases h : findImg t with
    | none =>
      rw [h] at iht
      simp only at iht
      unfold findImg
      rw [imgHere_not_bang c _ hc, iht]
    | some q =>
      obtain ⟨p, a, u, r⟩ := q
      rw [h] at iht
      simp only at iht
      unfold findImg
      rw [imgHere_not_bang c _ hc, iht]
      simp

/-- The unanchored image search finds nothing in a bang-free text. -/
theorem findImg_none (w : List Char) (hw : ∀ c ∈ w, c ≠ '!') :
    findImg w = none := by
  have h := findImg_skip w hw []
  rw [List.append_nil] at h
  simpa using h

/-- The unanchored image pattern matches at the start of an image marker:
alt up to the first `]`, url up to the first `)`. -/
theorem imgHere_core (alt url rest : List Char) (halt : ']' ∉ alt)
    (hurl : url ≠ []) (hurlp : ')' ∉ url) :
    imgHere ('!' :: '[' :: (alt ++ ']' :: '(' :: (url ++ ')' :: rest))) =
      some (alt, url, rest) := by
  have htw := takeWhile_stop (fun c => c != ']') alt ']'
    ('(' :: (url ++ ')' :: rest))
    (fun x hx => by simp; intro he; exact halt (he ▸ hx)) (by simp)
  have htw2 := takeWhile_stop (fun c => c != ')') url ')' rest
    (fun x hx => by simp; intro he; exact hurlp (he ▸ hx)) (by simp)
  simp only [imgHere, htw.1, htw.2, htw2.1, htw2.2]
  simp [hurl]

/-- The anchored image regex matches an image marker followed by trailing
whitespace only. -/
theorem imgLineMatch_core (alt url ws2 : List Char) (halt : ']' ∉ alt)
    (hurl : url ≠ []) (hurlp : ')' ∉ url)
    (hws2 : ∀ c ∈ ws2, isPySpace c = true) :
    imgLineMatch ('!' :: '[' :: (alt ++ ']' :: '(' :: (url ++ ')' :: ws2))) =
      some (alt, url) := by
  have htw := takeWhile_stop (fun c => c != ']') alt ']'
    ('(' :: (url ++ ')' :: ws2))
    (fun x hx => by simp; intro he; exact halt (he ▸ hx)) (by simp)
  have htw2 := takeWhile_stop (fun c => c != ')') url ')' ws2
    (fun x hx => by simp; intro he; exact hurlp (he ▸ hx)) (by simp)
  simp only [imgLineMatch, htw.1, htw.2, htw2.1, htw2.2]
  simp [hurl, List.all_eq_true]
  exact hws2

/-- The image marker in cons-normalised form with a trailing rest. -/
theorem imgCore_append (alt url rest : List Char) :
    imgCore alt url ++ rest =
      '!' :: '[' :: (alt ++ ']' :: '(' :: (url ++ ')' :: rest)) := by
  simp [imgCore, List.append_assoc]

/-- The unanchored image search at the start of an image marker. -/
theorem findImg_core (alt url rest : List Char) (halt : ']' ∉ alt)
    (hurl : url ≠ []) (hurlp : ')' ∉ url) :
    findImg (imgCore alt url ++ rest) = some ([], alt, url, rest) := by
  rw [imgCore_append]
  unfold findImg
  rw [imgHere_core alt url rest halt hurl hurlp]

/-- Strip of an all-whitespace string is empty. -/
theorem pyStrip_all_space (w : List Char) (h : ∀ x ∈ w, isPySpace x = true) :
    pyStrip w = [] := by
  unfold pyStrip
  rw [List.dropWhile_eq_nil_iff.2 (fun x hx => h x hx)]
  rfl

/-- A line stripping to a bang-headed string is not a fence toggle. -/
theorem fenceToggle_bang (line : List Char) (r : List Char)
    (h : pyStrip line = '!' :: r) : fenceToggle line = false := by
  unfold fenceToggle
  rw [h]
  rfl

/-- The heading regex fails on a line not starting with a hash. -/
theorem headingMatch_not_hash (c : Char) (t : List Char) (h : c ≠ '#') :
    headingMatch (c :: t) = none := by
  unfold headingMatch
  rw [List.takeWhile_cons, if_neg (by simp [h])]

/-- The unordered-list regex fails on a bang-headed string. -/
theorem unorderedMatch_bang (r : List Char) : unorderedMatch ('!' :: r) = none := by
  simp only [unorderedMatch]
  rw [if_neg (by decide)]

/-- The ordered-list regex fails on a bang-headed string. -/
theorem orderedMatch_bang (r : List Char) : orderedMatch ('!' :: r) = none := by
  simp [orderedMatch, List.dropWhile_cons]

/-- A line stripping to a bang-headed string is not a list item. -/
theorem is_list_item_bang (line : List Char) (r : List Char)
    (h : pyStrip line = '!' :: r) : _is_list_item line = none := by
  simp only [_is_list_item, h, unorderedMatch_bang, orderedMatch_bang]

/-- A line stripping to a bang-headed string with fewer than two pipes is
not a table row. -/
theorem is_table_row_bang (line : List Char) (r : List Char)
    (hhead : pyStrip line = '!' :: r)
    (hcount : line.count '|' < 2) : _is_table_row line = false := by
  simp only [_is_table_row, hhead]
  simp [Nat.not_le.2 hcount]

/-- `_parse_table` on a single-line suffix always aborts: at most one table
row can be collected. -/
theorem parse_table_single (line : List Char) :
    _parse_table [line] = (none, []) := by
  unfold _parse_table
  by_cases h : _is_table_row line = true
  · simp [List.takeWhile_cons, List.dropWhile_cons, h]
  · simp [List.takeWhile_cons, List.dropWhile_cons, h]

/-- On a single-line suffix, the table branch always falls through. -/
theorem stepTable_single (s : PState) (line : List Char) :
    stepTable s line [] = stepList s line [] := by
  unfold stepTable
  by_cases h : _is_table_row line = true
  · rw [if_pos h, parse_table_single]
  · rw [if_neg h]

/-- The loop body dispatches to the table branch when the line is neither a
fence toggle (outside code mode) nor a heading. -/
theorem stepFn_to_stepTable (line : List Char) (rest cl : List (List Char))
    (lg : List Char) (el : List Element)
    (h2 : fenceToggle line = false) (h4 : headingMatch line = none) :
    stepFn (PState.mk (line :: rest) false cl lg el) =
      stepTable (PState.mk (line :: rest) false cl lg el) line rest := by
  simp [stepFn, h2, h4]

/-- The table branch falls through to the list branch on a non-table-row
line. -/
theorem stepTable_to_stepList (s : PState) (line : List Char)
    (rest : List (List Char)) (h : _is_table_row line = false) :
    stepTable s line rest = stepList s line rest := by
  simp [stepTable, h]

/-- The list branch falls through to the image branch on a non-list line. -/
theorem stepList_to_stepImage (s : PState) (line : List Char)
    (rest : List (List Char)) (h : _is_list_item line = none) :
    stepList s line rest = stepImage s line rest := by
  simp [stepList, h]

/-- The image branch emits one `Image` element on an anchored match. -/
theorem stepImage_image (line : List Char) (rest cl : List (List Char))
    (lg : List Char) (el : List Element) (alt url : List Char)
    (h : imgLineMatch line = some (alt, url)) :
    stepImage (PState.mk (line :: rest) false cl lg el) line rest =
      PState.mk rest false cl lg (el ++ [Element.image alt url]) := by
  simp [stepImage, h]

/-- On a single non-blank line that no other rule takes, the image branch
falls to the paragraph accumulator, which consumes the line and emits the
paragraph split. -/
theorem stepImage_para (line : List Char) (cl : List (List Char))
    (lg : List Char) (el : List Element)
    (h1 : imgLineMatch line = none) (h2 : pyStrip line ≠ [])
    (h3 : paraLine line = true) :
    stepImage (PState.mk [line] false cl lg el) line [] =
      PState.mk [] false cl lg (el ++ paraEmit line) := by
  simp only [stepImage, h1, h2, List.takeWhile_cons, List.dropWhile_cons, h3,
    if_pos, if_true, List.takeWhile_nil, List.dropWhile_nil]
  simp [joinWith]

/-- With fuel left, the split loop returns the input unchanged when no
image matches. -/
theorem splitImgs_none (n : Nat) (t : List Char) (h : findImg t = none) :
    splitImgs n t = ([], t) := by
  cases n with
  | zero => rfl
  | succ k => simp [splitImgs, h]

/-- With positive fuel, the split loop on a text holding exactly one image
match yields that one segment plus the trailing text. -/
theorem splitImgs_single (n : Nat) (t pre alt url rest : List Char)
    (h : findImg t = some (pre, alt, url, rest)) (hrest : findImg rest = none)
    (hn : 1 ≤ n) :
    splitImgs n t = ([(pre, alt, url)], rest) := by
  cases n with
  | zero => omega
  | succ k => simp [splitImgs, h, splitImgs_none k rest hrest]

/-- `paraEmit` on a span consisting of whitespace, one image marker and
whitespace emits exactly the one `Image` element. -/
theorem paraEmit_image_only (pre tail alt url : List Char)
    (hfind : findImg (pre ++ imgCore alt url ++ tail) = some (pre, alt, url, tail))
    (hpre : pyStrip pre = []) (htail : pyStrip tail = [])
    (htailn : findImg tail = none) :
    paraEmit (pre ++ imgCore alt url ++ tail) = [Element.image alt url] := by
  have hlen : 1 ≤ (pre ++ imgCore alt url ++ tail).length := by
    simp [imgCore]
    omega
  unfold paraEmit
  rw [hfind]
  simp only
  rw [splitImgs_single _ _ pre alt url tail hfind htailn hlen]
  simp [hpre, htail]

/-- C9 counterexample: the line `" ![a|b|c](u)"` trimmed matches exactly
`![alt](url)`, yet `parse` emits no `Image` element — the line has leading
whitespace and two pipe characters, so the loose table-row heuristic fires,
the table interpretation aborts, and the parse loop never terminates
(the aborted-table bug of C1/C2). -/
theorem C9_image_line_cex :
    MarkdownParser.parse (" ![a|b|c](u)".toList) = none ∧
    MarkdownParser.parse (" ![a|b|c](u)".toList) ≠
      some [Element.image "a|b|c".toList "u".toList] := by
  exact ⟨by decide, by decide⟩

/-- C9 (amended): for every single-line input that, after trimming leading
and trailing whitespace, matches exactly `![alt](url)` with no trailing
content, `parse` emits exactly one `Image` element with that alt and url
(and no `Paragraph`) — provided the line has no leading whitespace or
contains fewer than two `|` characters; a line with leading whitespace that
also satisfies the table-row heuristic instead hits the aborted-table bug
and the parse loop diverges. -/
theorem C9_image_line_amended (ws1 ws2 alt url : List Char)
    (hw1 : ∀ c ∈ ws1, isPySpace c = true ∧ c ≠ '\n')
    (hw2 : ∀ c ∈ ws2, isPySpace c = true ∧ c ≠ '\n')
    (halt : ']' ∉ alt ∧ '\n' ∉ alt)
    (hurl : url ≠ [] ∧ ')' ∉ url ∧ '\n' ∉ url)
    (hside : ws1 = [] ∨ (ws1 ++ imgCore alt url ++ ws2).count '|' < 2) :
    MarkdownParser.parse (ws1 ++ imgCore alt url ++ ws2) =
      some [Element.image alt url] := by
  have hnl : '\n' ∉ ws1 ++ imgCore alt url ++ ws2 := by
    intro hmem
    rcases List.mem_append.1 hmem with hm | hm
    · rcases List.mem_append.1 hm with hm1 | hm1
      · exact (hw1 _ hm1).2 rfl
      · have hm2 : '\n' ∈ '!' :: '[' :: (alt ++ ']' :: '(' :: (url ++ [')'])) := hm1
        rcases List.mem_cons.1 hm2 with h | hm2
        · exact absurd h (by decide)
        rcases List.mem_cons.1 hm2 with h | hm2
        · exact absurd h (by decide)
        rcases List.mem_append.1 hm2 with h | hm2
        · exact halt.2 h
        rcases List.mem_cons.1 hm2 with h | hm2
        · exact absurd h (by decide)
        rcases List.mem_cons.1 hm2 with h | hm2
        · exact absurd h (by decide)
        rcases List.mem_append.1 hm2 with h | hm2
        · exact hurl.2.2 h
        rcases List.mem_cons.1 hm2 with h | hm2
        · exact absurd h (by decide)
        · exact absurd hm2 (by simp)
    · exact (hw2 _ hm).2 rfl
  have hsplit : splitOnChar '\n' (ws1 ++ imgCore alt url ++ ws2) =
      [ws1 ++ imgCore alt url ++ ws2] := splitOnChar_no_sep '\n' _ hnl
  have hstrip : pyStrip (ws1 ++ imgCore alt url ++ ws2) = imgCore alt url :=
    pyStrip_sandwich ws1 (imgCore alt url) ws2 '!' ')'
      ('!' :: '[' :: (alt ++ ']' :: '(' :: url))
      (fun c hc => (hw1 c hc).1) (fun c hc => (hw2 c hc).1)
      rfl (by decide) (by simp [imgCore, List.append_assoc]) (by decide)
  have hstrip2 : pyStrip (ws1 ++ imgCore alt url ++ ws2) =
      '!' :: ('[' :: (alt ++ ']' :: '(' :: (url ++ [')']))) := by
    rw [hstrip]
    rfl
  have hfence : fenceToggle (ws1 ++ imgCore alt url ++ ws2) = false :=
    fenceToggle_bang _ _ hstrip2
  have hlist : _is_list_item (ws1 ++ imgCore alt url ++ ws2) = none :=
    is_list_item_bang _ _ hstrip2
  have hheading : headingMatch (ws1 ++ imgCore alt url ++ ws2) = none := by
    cases hws : ws1 with
    | nil =>
      rw [List.nil_append]
      exact headingMatch_not_hash '!' _ (by decide)
    | cons c0 w' =>
      exact headingMatch_not_hash c0 _
        (space_ne_hash c0 (hw1 c0 (by rw [hws]; simp)).1)
  have hstep : stepFn (PState.mk [ws1 ++ imgCore alt url ++ ws2] false [] [] []) =
      PState.mk [] false [] [] [Element.image alt url] := by
    rw [stepFn_to_stepTable _ _ _ _ _ hfence hheading]
    by_cases hws1 : ws1 = []
    · subst hws1
      rw [stepTable_single, stepList_to_stepImage _ _ _ hlist]
      have himg : imgLineMatch ([] ++ imgCore alt url ++ ws2) = some (alt, url) := by
        rw [List.nil_append, imgCore_append]
        exact imgLineMatch_core alt url ws2 halt.1 hurl.1 hurl.2.1
          (fun c hc => (hw2 c hc).1)
      rw [stepImage_image _ _ _ _ _ _ _ himg]
      simp
    · obtain ⟨c0, w', hw⟩ : ∃ c0 w', ws1 = c0 :: w' := by
        cases ws1 with
        | nil => exact absurd rfl hws1
        | cons a b => exact ⟨a, b, rfl⟩
      have hc0sp : isPySpace c0 = true := (hw1 c0 (by rw [hw]; simp)).1
      have hcount : (ws1 ++ imgCore alt url ++ ws2).count '|' < 2 := by
        rcases hside with h | h
        · exact absurd h hws1
        · exact h
      have htr : _is_table_row (ws1 ++ imgCore alt url ++ ws2) = false :=
        is_table_row_bang _ _ hstrip2 hcount
      rw [stepTable_to_stepList _ _ _ htr, stepList_to_stepImage _ _ _ hlist]
      have himg : imgLineMatch (ws1 ++ imgCore alt url ++ ws2) = none := by
        rw [hw]
        exact imgLineMatch_not_bang c0 _ (space_ne_bang c0 hc0sp)
      have hblank : pyStrip (ws1 ++ imgCore alt url ++ ws2) ≠ [] := by
        rw [hstrip2]
        simp
      have hpl : paraLine (ws1 ++ imgCore alt url ++ ws2) = true := by
        have hne : c0 ≠ '#' := space_ne_hash c0 hc0sp
        have hh : (ws1 ++ imgCore alt url ++ ws2).head? = some c0 := by
          rw [hw]
          rfl
        unfold paraLine
        rw [hfence, htr, hlist, himg, hh, hstrip2]
        simp [hne]
      rw [stepImage_para _ _ _ _ himg hblank hpl]
      have hfind : findImg (ws1 ++ imgCore alt url ++ ws2) =
          some (ws1, alt, url, ws2) := by
        rw [List.append_assoc]
        have h1 := findImg_skip ws1 (fun c hc => space_ne_bang c (hw1 c hc).1)
          (imgCore alt url ++ ws2)
        rw [findImg_core alt url ws2 halt.1 hurl.1 hurl.2.1] at h1
        simpa using h1
      have hemit : paraEmit (ws1 ++ imgCore alt url ++ ws2) =
          [Element.image alt url] :=
        paraEmit_image_only ws1 ws2 alt url hfind
          (pyStrip_all_space ws1 (fun c hc => (hw1 c hc).1))
          (pyStrip_all_space ws2 (fun c hc => (hw2 c hc).1))
          (findImg_none ws2 (fun c hc => space_ne_bang c (hw2 c hc).1))
      rw [hemit]
      simp
  unfold MarkdownParser.parse initState
  rw [hsplit]
  rw [show ([ws1 ++ imgCore alt url ++ ws2] : List (List Char)).length + 1 = 1 + 1
    from rfl]
  rw [parseFuel_succ _ _ (by simp)]
  rw [hstep]
  rw [parseFuel_done 0 _ rfl]

/-- Witness for the amended C9 at a concrete line with leading whitespace. -/
theorem C9_image_line_amended_witness :
    MarkdownParser.parse (" ".toList ++ imgCore "a".toList "u".toList ++ "".toList) =
      some [Element.image "a".toList "u".toList] :=
  C9_image_line_amended " ".toList "".toList "a".toList "u".toList
    (by decide) (by decide) (by decide) (by decide) (Or.inr (by decide))
